import Mathlib

/-!
Shallow embedding of the `simple_cryptocurrency_rs` ledger core
(`src/blockchain/transaction.rs`, `src/blockchain/block.rs`,
`src/blockchain/global_state.rs`).

External cryptographic and serialization libraries (SHA-256, secp256k1
ECDSA, bincode) are treated as parameters collected in `Env` / `Codec`:
the theorems quantify over them, and concrete toy instances are used for
witnesses and counterexamples.  Machine integers (`u32`, `u64`) are
modelled as `Nat` with explicit `% 2 ^ 32` / `% 2 ^ 64` where the Rust
code can wrap.  Rust panics (`unwrap`, out-of-bounds indexing) are
modelled as `none` results.
-/

/-! ## Definitions -/

/-- Little-endian byte encoding: `leBytes k n` is the `k` low bytes of `n`,
least significant first (`u32::to_ne_bytes` / `u64::to_le_bytes` on a
little-endian machine). -/
def leBytes : Nat → Nat → List Nat
  | 0, _ => []
  | k + 1, n => n % 256 :: leBytes k (n / 256)

/-- Little-endian byte decoding (`u32::from_ne_bytes` on a little-endian
machine). -/
def leNat : List Nat → Nat
  | [] => 0
  | b :: bs => b + 256 * leNat bs

/-- A SHA-256 digest, as a byte list (32 bytes in actual use). -/
abbrev Sha256Hash := List Nat

/-- The all-zero 32-byte string `[0u8; 32]`. -/
def zeros32 : Sha256Hash := List.replicate 32 0

/-- `Output { to_pubkey, amount }`; the verifying key is abstracted to a
`Nat` identifier. -/
structure Output where
  to_pubkey : Nat
  amount : Nat
deriving DecidableEq

/-- `InputCore { tx_id, output_id }`. -/
structure InputCore where
  tx_id : Sha256Hash
  output_id : Nat
deriving DecidableEq

/-- `Input { core, signature }`; the ECDSA signature is abstracted to a
`Nat` identifier. -/
structure Input where
  core : InputCore
  signature : Nat
deriving DecidableEq

/-- `Transaction { time_stamp, inputs, outputs }`; `SystemTime` is
abstracted to a `Nat` tick. -/
structure Transaction where
  time_stamp : Nat
  inputs : List Input
  outputs : List Output
deriving DecidableEq

/-- `TransactionValidityError`. -/
inductive TransactionValidityError
  | InvalidOutputAmount (v : Nat)
  | InvalidSignature (i : Nat)
  | InputDoesNotExist (i : Nat)
deriving DecidableEq

/-- `BlockValidityError`. -/
inductive BlockValidityError
  | InvalidHash
  | InvalidTransaction
  | InvalidMinerReward
deriving DecidableEq

/-- `Block { previous_block, time_stamp, tx_list, nonce }`. -/
structure Block where
  previous_block : Sha256Hash
  time_stamp : Nat
  tx_list : List Transaction
  nonce : Nat
deriving DecidableEq

/-- The external libraries the ledger core uses: SHA-256 (`digest`),
bincode serialization of transactions and timestamps, ECDSA signature
verification, and bincode deserialization of blocks. -/
structure Env where
  digest : List Nat → Sha256Hash
  serTx : Transaction → List Nat
  serTime : Nat → List Nat
  verify : Input → Nat → Bool
  deserBlock : List Nat → Option Block

/-- A UTXO set: `HashMap<(Sha256Hash, u32), Output>`, modelled
extensionally as a partial map. -/
def UTXOSet := Sha256Hash × Nat → Option Output

/-- `HashMap::insert`. -/
def insertU (u : UTXOSet) (k : Sha256Hash × Nat) (o : Output) : UTXOSet :=
  fun k' => if k' = k then some o else u k'

/-- `HashMap::remove` (the removed value is unused by the callers). -/
def removeU (u : UTXOSet) (k : Sha256Hash × Nat) : UTXOSet :=
  fun k' => if k' = k then none else u k'

/-- `are_first_n_bits_equal` (`block.rs`).  Returns `none` where the Rust
code would panic with an out-of-bounds index (`slice[full_bytes]` past the
end). -/
def are_first_n_bits_equal (slice1 slice2 : List Nat) (n : Nat) : Option Bool :=
  let full_bytes := n / 8
  let remaining_bits := n % 8
  if slice1.length < full_bytes ∨ slice2.length < full_bytes then
    some false
  else if slice1.take full_bytes ≠ slice2.take full_bytes then
    some false
  else if remaining_bits > 0 then
    match slice1[full_bytes]?, slice2[full_bytes]? with
    | some b1, some b2 =>
        some (decide (b1 % 2 ^ remaining_bits = b2 % 2 ^ remaining_bits))
    | _, _ => none
  else
    some true

/-- `Transaction::calculate_id`: SHA-256 of the bincode serialization. -/
def Transaction.calculate_id (e : Env) (tx : Transaction) : Sha256Hash :=
  e.digest (e.serTx tx)

/-- The fold `self.outputs.iter().fold(0, |acc, val| acc + val.amount)`
with `u32` wrapping. -/
def outputTotal (tx : Transaction) : Nat :=
  tx.outputs.foldl (fun acc o => (acc + o.amount) % 2 ^ 32) 0

/-- The input loop of `Transaction::is_valid`: accumulates the referenced
amounts (wrapping `u32` addition), or fails with the first
`InputDoesNotExist` / `InvalidSignature`. -/
def sumInputs (e : Env) (u : UTXOSet) : List Input → Nat → Nat →
    Except TransactionValidityError Nat
  | [], _, acc => .ok acc
  | inp :: rest, i, acc =>
    match u (inp.core.tx_id, inp.core.output_id) with
    | none => .error (.InputDoesNotExist i)
    | some utxo =>
      if e.verify inp utxo.to_pubkey then
        sumInputs e u rest (i + 1) ((acc + utxo.amount) % 2 ^ 32)
      else
        .error (.InvalidSignature i)

/-- `Transaction::is_valid` (`transaction.rs`). -/
def Transaction.is_valid (e : Env) (tx : Transaction) (u : UTXOSet) :
    Except TransactionValidityError Nat :=
  match sumInputs e u tx.inputs 0 0 with
  | .error err => .error err
  | .ok total_input =>
    if outputTotal tx ≤ total_input then
      .ok (total_input - outputTotal tx)
    else
      .error (.InvalidOutputAmount (outputTotal tx - total_input))

/-- The referenced amount of one input (0 if absent; only used under the
hypothesis that the input is present). -/
def refAmount (u : UTXOSet) (inp : Input) : Nat :=
  match u (inp.core.tx_id, inp.core.output_id) with
  | some o => o.amount
  | none => 0

/-- Sum of the referenced input amounts, with `u32` wrapping, mirroring
the accumulator of the input loop. -/
def inputTotal (u : UTXOSet) (inputs : List Input) : Nat :=
  inputs.foldl (fun acc inp => (acc + refAmount u inp) % 2 ^ 32) 0

/-- Decidable form of "input `inp` references a key present in `u` and its
signature verifies against the referenced output's public key". -/
def inputOk (e : Env) (u : UTXOSet) (inp : Input) : Bool :=
  match u (inp.core.tx_id, inp.core.output_id) with
  | some o => e.verify inp o.to_pubkey
  | none => false

/-- Bincode serialization of a block minus the trailing nonce:
`previous_block` (32 raw bytes), the timestamp, the `u64` length prefix of
`tx_list` followed by the serialized transactions. -/
def serHead (e : Env) (b : Block) : List Nat :=
  b.previous_block ++ e.serTime b.time_stamp ++
    leBytes 8 b.tx_list.length ++ (b.tx_list.map e.serTx).flatten

/-- Bincode serialization of a `Block`: the nonce is the final field and
occupies the trailing 8 bytes (little-endian `u64`). -/
def serBlock (e : Env) (b : Block) : List Nat :=
  serHead e b ++ leBytes 8 (b.nonce % 2 ^ 64)

/-- `Block::hash`: SHA-256 of the bincode serialization. -/
def Block.hash (e : Env) (b : Block) : Sha256Hash :=
  e.digest (serBlock e b)

/-- The miner-reward loop of `Block::is_valid_block`: `expected` picks up
fees of valid transactions, `actual` the deltas of `InvalidOutputAmount`
failures; any other failure rejects with `InvalidTransaction`.  Additions
are wrapping `u32`. -/
def rewardLoop (e : Env) (u : UTXOSet) : List Transaction → Nat → Nat →
    Except BlockValidityError (Nat × Nat)
  | [], expected, actual => .ok (expected, actual)
  | tx :: rest, expected, actual =>
    match Transaction.is_valid e tx u with
    | .ok val => rewardLoop e u rest ((expected + val) % 2 ^ 32) actual
    | .error (.InvalidOutputAmount val) =>
        rewardLoop e u rest expected ((actual + val) % 2 ^ 32)
    | .error _ => .error .InvalidTransaction

/-- `Block::is_valid_block` (`block.rs`).  The outer `Option` is `none`
where the proof-of-work bit check would panic. -/
def Block.is_valid_block (e : Env) (b : Block) (difficulty reward : Nat)
    (u : UTXOSet) : Option (Except BlockValidityError Unit) :=
  match are_first_n_bits_equal zeros32 (Block.hash e b) difficulty with
  | none => none
  | some false => some (.error .InvalidHash)
  | some true =>
    some (match rewardLoop e u b.tx_list reward 0 with
      | .error err => .error err
      | .ok (expected, actual) =>
        if expected = actual then .ok () else .error .InvalidMinerReward)

/-- `expected` after the whole loop, as an independent fold: `reward` plus
the fees of all transactions that validate (wrapping `u32`). -/
def expectedReward (e : Env) (u : UTXOSet) (txs : List Transaction)
    (reward : Nat) : Nat :=
  txs.foldl (fun acc tx =>
    match Transaction.is_valid e tx u with
    | .ok v => (acc + v) % 2 ^ 32
    | .error _ => acc) reward

/-- `actual` after the whole loop, as an independent fold: the sum of the
deltas of all transactions failing with `InvalidOutputAmount` (wrapping
`u32`). -/
def actualReward (e : Env) (u : UTXOSet) (txs : List Transaction)
    (acc0 : Nat) : Nat :=
  txs.foldl (fun acc tx =>
    match Transaction.is_valid e tx u with
    | .error (.InvalidOutputAmount v) => (acc + v) % 2 ^ 32
    | _ => acc) acc0

/-- Whether a validation result is a fee (`Ok`) or the coinbase signal
(`InvalidOutputAmount`), the two outcomes the reward loop tolerates. -/
def isOkOrCoinbase : Except TransactionValidityError Nat → Bool
  | .ok _ => true
  | .error (.InvalidOutputAmount _) => true
  | .error _ => false

/-- The mining loop of `Block::mine`: `pre` is the serialization minus the
trailing 8 bytes (never rewritten), `cur` the current trailing 8 bytes
(initially the block's original nonce), `nonce` the counter starting at 0.
Fuel-indexed; `none` means the fuel ran out or the bit check panicked. -/
def mineAux (e : Env) (d : Nat) (pre : List Nat) :
    List Nat → Nat → Nat → Option Nat
  | _, _, 0 => none
  | cur, nonce, fuel + 1 =>
    match are_first_n_bits_equal zeros32 (e.digest (pre ++ cur)) d with
    | some true => some nonce
    | some false =>
        mineAux e d pre (leBytes 8 ((nonce + 1) % 2 ^ 64))
          ((nonce + 1) % 2 ^ 64) fuel
    | none => none

/-- `Block::mine` (`block.rs`): serialize once, then repeatedly hash,
overwriting only the trailing 8 nonce bytes; on success store the counter
into the block. -/
def Block.mine (e : Env) (b : Block) (difficulty : Nat) (fuel : Nat) :
    Option Block :=
  let s := serBlock e b
  (mineAux e difficulty (s.take (s.length - 8)) (s.drop (s.length - 8))
      0 fuel).map (fun n => { b with nonce := n })

/-- `Block::new` — `SystemTime::now()` is abstracted as the argument
`now`. -/
def Block.new (now : Nat) : Block :=
  { previous_block := zeros32, time_stamp := now, tx_list := [], nonce := 0 }

/-- `Block::add`: push onto `tx_list`. -/
def Block.add (b : Block) (tx : Transaction) : Block :=
  { b with tx_list := b.tx_list ++ [tx] }

/-- The scan of `Block::remove_lowest_fee_transaction`: walks `tx_list`
tracking `(lowest_fee_id, lowest_fee)` and `second_lowest_fee` (updated
only when the minimum is displaced).  `none` models the panic of
`tx.is_valid(utxo_set).unwrap()` on an invalid transaction. -/
def rlftScan (e : Env) (u : UTXOSet) : List Transaction → Nat →
    Option (Nat × Nat) → Option Nat → Option (Option (Nat × Nat) × Option Nat)
  | [], _, best, second => some (best, second)
  | tx :: rest, i, best, second =>
    match Transaction.is_valid e tx u with
    | .error _ => none
    | .ok fee =>
      match best with
      | none => rlftScan e u rest (i + 1) (some (i, fee)) second
      | some (bi, bf) =>
        if fee < bf then
          rlftScan e u rest (i + 1) (some (i, fee)) (some bf)
        else
          rlftScan e u rest (i + 1) (some (bi, bf)) second

/-- `Block::remove_lowest_fee_transaction` (`block.rs`): removes the
lowest-fee transaction and returns the tracked `second_lowest_fee`.  The
outer `Option` is `none` where the scan would panic. -/
def Block.remove_lowest_fee_transaction (e : Env) (b : Block) (u : UTXOSet) :
    Option (Block × Option Nat) :=
  match rlftScan e u b.tx_list 0 none none with
  | none => none
  | some (best, second) =>
    match best with
    | some (i, _) => some ({ b with tx_list := b.tx_list.eraseIdx i }, second)
    | none => some (b, second)

/-- The loop of `Block::from_mempool`, iterating the mempool in set order.
`none` models a panic: either `tx.is_valid(utxo_set).unwrap()` on an
invalid mempool entry, or the `.unwrap()` of
`remove_lowest_fee_transaction`'s `Option` result on eviction. -/
def fromMempoolGo (e : Env) (u : UTXOSet) :
    List Transaction → Block → Nat → Option Block
  | [], block, _ => some block
  | tx :: rest, block, lowest_fee =>
    match Transaction.is_valid e tx u with
    | .error _ => none
    | .ok fee =>
      if block.tx_list.length < 5 then
        fromMempoolGo e u rest (block.add tx)
          (if fee < lowest_fee then fee else lowest_fee)
      else if lowest_fee < fee then
        match Block.remove_lowest_fee_transaction e block u with
        | none => none
        | some (block2, second) =>
          match second with
          | none => none
          | some lf =>
            fromMempoolGo e u rest (block2.add tx)
              (if fee < lf then fee else lf)
      else
        fromMempoolGo e u rest block lowest_fee

/-- `Block::from_mempool` (`block.rs`): `lowest_fee` starts at `u32::MAX`;
the mempool's iteration order is the list order of `mempool`. -/
def Block.from_mempool (e : Env) (now : Nat) (mempool : List Transaction)
    (u : UTXOSet) : Option Block :=
  fromMempoolGo e u mempool (Block.new now) (2 ^ 32 - 1)

/-- The input-removal loop of `Block::update_utxo_set` for one
transaction. -/
def removeInputs (tx : Transaction) (u : UTXOSet) : UTXOSet :=
  tx.inputs.foldl
    (fun acc inp => removeU acc (inp.core.tx_id, inp.core.output_id)) u

/-- The output-insertion loop of `Block::update_utxo_set` for one
transaction: insert `(tx.calculate_id(), i) -> output` for each output. -/
def insertOutputs (txid : Sha256Hash) : List Output → Nat → UTXOSet → UTXOSet
  | [], _, u => u
  | o :: rest, i, u => insertOutputs txid rest (i + 1) (insertU u (txid, i) o)

/-- One transaction's effect in `Block::update_utxo_set`: remove the
consumed keys, then insert the created outputs. -/
def applyTx (e : Env) (tx : Transaction) (u : UTXOSet) : UTXOSet :=
  insertOutputs (Transaction.calculate_id e tx) tx.outputs 0 (removeInputs tx u)

/-- `Block::update_utxo_set` (`block.rs`). -/
def Block.update_utxo_set (e : Env) (b : Block) (u : UTXOSet) : UTXOSet :=
  b.tx_list.foldl (fun acc tx => applyTx e tx acc) u

/-- The pending set `utxos_to_add`: a `HashSet<(Sha256Hash, u32)>`,
modelled as a list with set semantics (membership). -/
abbrev PendingSet := List (Sha256Hash × Nat)

/-- `HashSet::remove` on the pending set. -/
def removeP (p : PendingSet) (k : Sha256Hash × Nat) : PendingSet :=
  p.filter (fun k' => k' ≠ k)

/-- One transaction's effect in `Block::rewind`: remove each
`(tx.calculate_id(), i)` from the UTXO set and the pending set, then
insert each input's `(tx_id, output_index)` into the pending set. -/
def rewindTx (e : Env) (tx : Transaction) (up : UTXOSet × PendingSet) :
    UTXOSet × PendingSet :=
  let up1 := (List.range tx.outputs.length).foldl
    (fun (acc : UTXOSet × PendingSet) i =>
      (removeU acc.1 (Transaction.calculate_id e tx, i),
        removeP acc.2 (Transaction.calculate_id e tx, i))) up
  (up1.1, tx.inputs.foldl
    (fun acc inp => (inp.core.tx_id, inp.core.output_id) :: acc) up1.2)

/-- `Block::rewind` (`block.rs`). -/
def Block.rewind (e : Env) (b : Block) (u : UTXOSet) (p : PendingSet) :
    UTXOSet × PendingSet :=
  b.tx_list.foldl (fun up tx => rewindTx e tx up) (u, p)

/-- The output loop of `Block::add_pending_utxos_to_utxo_set` for one
transaction: `utxos_to_add.take(&key)` moves a pending key into the UTXO
set with the output found in this transaction. -/
def addPendingOuts (txid : Sha256Hash) :
    List Output → Nat → UTXOSet × PendingSet → UTXOSet × PendingSet
  | [], _, up => up
  | o :: rest, i, up =>
    if (txid, i) ∈ up.2 then
      addPendingOuts txid rest (i + 1)
        (insertU up.1 (txid, i) o, removeP up.2 (txid, i))
    else
      addPendingOuts txid rest (i + 1) up

/-- `Block::add_pending_utxos_to_utxo_set` (`block.rs`). -/
def Block.add_pending_utxos_to_utxo_set (e : Env) (b : Block)
    (up : UTXOSet × PendingSet) : UTXOSet × PendingSet :=
  b.tx_list.foldl
    (fun acc tx => addPendingOuts (Transaction.calculate_id e tx)
      tx.outputs 0 acc) up

/-- `Block::update_all_pending_utxos` (`block.rs`): while the pending set
is non-empty, read one more block backward from the chain log and resolve
pending keys against it.  `chain` lists the blocks in backward-scan order
(most recently appended first); `none` models the panic of stepping back
past the start of the file with pending keys left. -/
def Block.update_all_pending_utxos (e : Env) :
    List Block → UTXOSet → PendingSet → Option (UTXOSet × PendingSet)
  | _, u, [] => some (u, [])
  | [], _, _ :: _ => none
  | bl :: rest, u, p =>
    let up := Block.add_pending_utxos_to_utxo_set e bl (u, p)
    Block.update_all_pending_utxos e rest up.1 up.2

/-- A file plus cursor (`BufReader<File>` over the chain log). -/
structure FileState where
  data : List Nat
  pos : Nat

/-- `read_exact` of `n` bytes at the cursor: fails (`Err`) when fewer than
`n` bytes remain. -/
def readExact (f : FileState) (n : Nat) : Option (List Nat × Nat) :=
  if f.pos + n ≤ f.data.length then
    some ((f.data.drop f.pos).take n, f.pos + n)
  else
    none

/-- `Block::from_file` (`block.rs`), the forward chain-log read.  Result
`none` models a panic (the `.unwrap()` on the length-prefix read — which
fires at end-of-file — or on deserialization); `some (none, _)` is the
`None` return after a failed body read; `some (some b, pos)` is a
successfully parsed block with the new cursor. -/
def Block.from_file (e : Env) (f : FileState) : Option (Option Block × Nat) :=
  match readExact f 4 with
  | none => none
  | some (sizeBytes, pos1) =>
    let size := leNat sizeBytes
    match readExact ⟨f.data, pos1⟩ size with
    | none => some (none, pos1)
    | some (buffer, pos2) =>
      match e.deserBlock buffer with
      | none => none
      | some b => some (some b, pos2 + 4)

/-- `Block::from_file_backwads` (`block.rs`), the backward chain-log read.
`some (none, _)` is the `None` return when the initial 4-byte back-seek
fails (cursor too close to the start); `none` models the panics of the
later `.unwrap()`s. -/
def Block.from_file_backwads (e : Env) (f : FileState) :
    Option (Option Block × Nat) :=
  if f.pos < 4 then
    some (none, f.pos)
  else
    match readExact ⟨f.data, f.pos - 4⟩ 4 with
    | none => none
    | some (sizeBytes, pos1) =>
      let size := leNat sizeBytes
      if pos1 < 4 + size then
        none
      else
        match readExact ⟨f.data, pos1 - 4 - size⟩ size with
        | none => none
        | some (buffer, pos2) =>
          if pos2 < 4 + size then
            none
          else
            match e.deserBlock buffer with
            | none => none
            | some b => some (some b, pos2 - 4 - size)

/-- `Block::write_to_file` (`block.rs`): append
`[len as u32][serialized block][len as u32]` to the chain file. -/
def Block.write_to_file (e : Env) (b : Block) (data : List Nat) : List Nat :=
  let serialized := serBlock e b
  let len := serialized.length % 2 ^ 32
  data ++ leBytes 4 len ++ serialized ++ leBytes 4 len

/-- The bincode codec for a persisted state type `T` (`StateWithFile`):
`ser` is `bincode::serialize`; `deserFrom` is `bincode::deserialize_from`
on the file stream, returning the parsed value (or `none` on failure)
together with the number of bytes it consumed from the stream. -/
structure Codec (T : Type) where
  ser : T → List Nat
  deserFrom : List Nat → Option T × Nat

/-- `StateWithFile::new` (`global_state.rs`): seek to the start, attempt
to deserialize; on success keep the persisted value and leave the file
unchanged, on failure keep the default and `write_all` its serialization
at the cursor position where deserialization stopped.  Returns the
in-memory state and the resulting file contents. -/
def StateWithFile.new {T : Type} (c : Codec T) (fileData : List Nat)
    (state : T) : T × List Nat :=
  match c.deserFrom fileData with
  | (some val, _) => (val, fileData)
  | (none, consumed) =>
    (state, fileData.take consumed ++ c.ser state ++
      fileData.drop (consumed + (c.ser state).length))

/-- A trivial environment for concrete witnesses: every signature
verifies, the digest is constant. -/
def E1 : Env :=
  { digest := fun _ => [], serTx := fun _ => [], serTime := fun _ => [],
    verify := fun _ _ => true, deserBlock := fun _ => none }

def U1 : UTXOSet := fun k => if k = ([1], 0) then some ⟨5, 9⟩ else none

def T1 : Transaction := ⟨0, [⟨⟨[1], 0⟩, 0⟩], [⟨7, 4⟩]⟩

def C2B : Block := ⟨[], 0, [T1, ⟨1, [], [⟨0, 7⟩]⟩], 0⟩

/-- Digest making the nonce-5 serialization of the empty block meet
difficulty 8 while every other serialization fails it. -/
def E3 : Env :=
  { digest := fun xs =>
      if xs = [0] ++ leBytes 8 0 ++ leBytes 8 5 then List.replicate 32 0
      else 255 :: List.replicate 31 0,
    serTx := fun tx => [tx.time_stamp], serTime := fun t => [t],
    verify := fun _ _ => true, deserBlock := fun _ => none }

/-- A transaction spending the single output of the synthetic id `[i]`,
with no outputs: its fee is the referenced amount. -/
def txF (i : Nat) : Transaction := ⟨i, [⟨⟨[i], 0⟩, 0⟩], []⟩

/-- Snapshot giving `txF 1 .. txF 5` fees 1..5 and `txF 6` fee 9. -/
def U5 : UTXOSet := fun k =>
  if k = ([1], 0) then some ⟨0, 1⟩
  else if k = ([2], 0) then some ⟨0, 2⟩
  else if k = ([3], 0) then some ⟨0, 3⟩
  else if k = ([4], 0) then some ⟨0, 4⟩
  else if k = ([5], 0) then some ⟨0, 5⟩
  else if k = ([6], 0) then some ⟨0, 9⟩
  else none

/-- The empty UTXO snapshot. -/
def U6 : UTXOSet := fun _ => none

/-- An environment whose block codec recognises the single body `[7]`. -/
def E7 : Env :=
  { digest := fun _ => [], serTx := fun _ => [], serTime := fun _ => [],
    verify := fun _ _ => true,
    deserBlock := fun bs => if bs = [7] then some ⟨[], 0, [], 0⟩ else none }

/-- An environment whose block codec recognises exactly the serialization
of the empty block `⟨[], 0, [], 0⟩`. -/
def E8 : Env :=
  { digest := fun _ => [], serTx := fun tx => [tx.time_stamp],
    serTime := fun t => [t], verify := fun _ _ => true,
    deserBlock := fun bs =>
      if bs = [0] ++ leBytes 8 0 ++ leBytes 8 0 then some ⟨[], 0, [], 0⟩
      else none }

/-- A `u32`-style codec: values serialize to 4 little-endian bytes;
`deserialize_from` needs 4 bytes and on a shorter (corrupt) file fails
after consuming what was there (as `read_exact` does). -/
def CN : Codec Nat :=
  { ser := fun n => leBytes 4 (n % 2 ^ 32),
    deserFrom := fun bs =>
      if 4 ≤ bs.length then (some (leNat (bs.take 4)), 4)
      else (none, bs.length) }

/-- The UTXO keys consumed by one transaction's inputs. -/
def inKeys (tx : Transaction) : List (Sha256Hash × Nat) :=
  tx.inputs.map (fun inp => (inp.core.tx_id, inp.core.output_id))

/-- The UTXO keys created by one transaction's outputs. -/
def outKeys (e : Env) (tx : Transaction) : List (Sha256Hash × Nat) :=
  (List.range tx.outputs.length).map
    (fun i => (Transaction.calculate_id e tx, i))

/-- All keys consumed by a block's inputs. -/
def consumedKeys (b : Block) : List (Sha256Hash × Nat) :=
  b.tx_list.flatMap inKeys

/-- All keys created by a block's outputs. -/
def producedKeys (e : Env) (b : Block) : List (Sha256Hash × Nat) :=
  b.tx_list.flatMap (outKeys e)

/-- Key `k` names an output of transaction `tx` (the id matches and the
index is in range). -/
def occursIn (e : Env) (k : Sha256Hash × Nat) (tx : Transaction) : Prop :=
  Transaction.calculate_id e tx = k.1 ∧ k.2 < tx.outputs.length

instance (e : Env) (k : Sha256Hash × Nat) (tx : Transaction) :
    Decidable (occursIn e k tx) := by
  unfold occursIn; infer_instance

/-- Decidable equality for `Except`, needed to evaluate validation
results on concrete inputs. -/
instance exceptDecEq {E A : Type} [DecidableEq E] [DecidableEq A] :
    DecidableEq (Except E A)
  | .ok a, .ok b =>
    if h : a = b then .isTrue (by rw [h])
    else .isFalse (fun he => h (Except.ok.inj he))
  | .error a, .error b =>
    if h : a = b then .isTrue (by rw [h])
    else .isFalse (fun he => h (Except.error.inj he))
  | .ok _, .error _ => .isFalse (fun he => Except.noConfusion he)
  | .error _, .ok _ => .isFalse (fun he => Except.noConfusion he)

/-- Environment with a constant digest `[1]`, so the coinbase transaction
of the counterexample block has transaction id `[1]`. -/
def E4 : Env :=
  { digest := fun _ => [1], serTx := fun tx => [tx.time_stamp],
    serTime := fun t => [t], verify := fun _ _ => true,
    deserBlock := fun _ => none }

/-- A block holding one coinbase-style transaction (no inputs, one output
of amount 5). -/
def C4B : Block := ⟨[], 0, [⟨0, [], [⟨0, 5⟩]⟩], 0⟩

/-- A snapshot that already holds a UTXO under the key the coinbase will
mint, `([1], 0)`. -/
def C4U : UTXOSet := fun k => if k = ([1], 0) then some ⟨7, 7⟩ else none

/-- Environment whose digest distinguishes the chain transaction (id
`[1]`) from the rewound block's transactions (id `[9]`). -/
def E4W : Env :=
  { digest := fun xs => if xs = [0] then [1] else [9],
    serTx := fun tx => [tx.time_stamp], serTime := fun t => [t],
    verify := fun _ _ => true, deserBlock := fun _ => none }

/-- Block spending the chain output `([1], 0)` (fee 1) plus a coinbase of
amount 1; validated at difficulty 0 and reward 0. -/
def W4B : Block :=
  ⟨[], 3, [⟨1, [⟨⟨[1], 0⟩, 0⟩], [⟨0, 9⟩]⟩, ⟨2, [], [⟨0, 1⟩]⟩], 0⟩

def W4U : UTXOSet := fun k => if k = ([1], 0) then some ⟨0, 10⟩ else none

def W4chain : List Block := [⟨[], 0, [⟨0, [], [⟨0, 10⟩]⟩], 0⟩]

/-! ## Theorems -/

/-! ### Claim C1: transaction validity and the fee/delta arithmetic -/

theorem sumInputs_ok (e : Env) (u : UTXOSet) :
    ∀ (inputs : List Input), (∀ inp ∈ inputs, inputOk e u inp = true) →
    ∀ (i acc : Nat), sumInputs e u inputs i acc =
      .ok (inputs.foldl (fun a inp => (a + refAmount u inp) % 2 ^ 32) acc)
  | [], _, _, _ => rfl
  | inp :: rest, h, i, acc => by
    have hh := h inp (List.mem_cons_self inp rest)
    unfold inputOk at hh
    cases hu : u (inp.core.tx_id, inp.core.output_id) with
    | none => rw [hu] at hh; exact absurd hh (by simp)
    | some o =>
      rw [hu] at hh
      have hv : e.verify inp o.to_pubkey = true := hh
      simp only [sumInputs, hu, hv, if_true, List.foldl_cons]
      rw [sumInputs_ok e u rest (fun x hx => h x (List.mem_cons_of_mem _ hx))]
      simp [refAmount, hu]

/-- C1: for a transaction whose inputs all reference keys present in the
UTXO snapshot with verifying signatures, `is_valid` returns
`Ok(sum(inputs) - sum(outputs))` when `sum(outputs) <= sum(inputs)`, and
`Err(InvalidOutputAmount(sum(outputs) - sum(inputs)))` otherwise; a
transaction with zero inputs and positive total output yields
`InvalidOutputAmount(total output)`. -/
theorem c1_transaction_validity (e : Env) (tx : Transaction) (u : UTXOSet)
    (h : ∀ inp ∈ tx.inputs, inputOk e u inp = true) :
    (Transaction.is_valid e tx u =
      if outputTotal tx ≤ inputTotal u tx.inputs then
        .ok (inputTotal u tx.inputs - outputTotal tx)
      else
        .error (.InvalidOutputAmount (outputTotal tx - inputTotal u tx.inputs)))
    ∧ (tx.inputs = [] → 0 < outputTotal tx →
        Transaction.is_valid e tx u =
          .error (.InvalidOutputAmount (outputTotal tx))) := by
  have hmain : Transaction.is_valid e tx u =
      if outputTotal tx ≤ inputTotal u tx.inputs then
        .ok (inputTotal u tx.inputs - outputTotal tx)
      else
        .error (.InvalidOutputAmount (outputTotal tx - inputTotal u tx.inputs)) := by
    unfold Transaction.is_valid
    rw [sumInputs_ok e u tx.inputs h 0 0]
    rfl
  refine ⟨hmain, fun hnil hpos => ?_⟩
  rw [hmain]
  have hzero : inputTotal u tx.inputs = 0 := by
    rw [hnil]; rfl
  rw [hzero, if_neg (by omega), Nat.sub_zero]

theorem c1_transaction_validity_witness :
    (∀ inp ∈ T1.inputs, inputOk E1 U1 inp = true) ∧
    Transaction.is_valid E1 T1 U1 =
      (if outputTotal T1 ≤ inputTotal U1 T1.inputs then
        .ok (inputTotal U1 T1.inputs - outputTotal T1)
      else
        .error (.InvalidOutputAmount
          (outputTotal T1 - inputTotal U1 T1.inputs))) :=
  ⟨by decide, (c1_transaction_validity E1 T1 U1 (by decide)).1⟩

/-! ### Claim C2: block validity and miner-reward accounting -/

theorem rewardLoop_ok (e : Env) (u : UTXOSet) :
    ∀ (txs : List Transaction),
    (∀ tx ∈ txs, isOkOrCoinbase (Transaction.is_valid e tx u) = true) →
    ∀ (expected actual : Nat), rewardLoop e u txs expected actual =
      .ok (expectedReward e u txs expected, actualReward e u txs actual)
  | [], _, _, _ => rfl
  | tx :: rest, h, expected, actual => by
    have htx := h tx (List.mem_cons_self tx rest)
    have hrest := fun x hx => h x (List.mem_cons_of_mem tx hx)
    cases hv : Transaction.is_valid e tx u with
    | ok v =>
      simp only [rewardLoop, hv, expectedReward, actualReward, List.foldl_cons]
      rw [rewardLoop_ok e u rest hrest]
      rfl
    | error err =>
      cases err with
      | InvalidOutputAmount v =>
        simp only [rewardLoop, hv, expectedReward, actualReward,
          List.foldl_cons]
        rw [rewardLoop_ok e u rest hrest]
        rfl
      | InvalidSignature i => rw [hv] at htx; exact absurd htx (by simp [isOkOrCoinbase])
      | InputDoesNotExist i => rw [hv] at htx; exact absurd htx (by simp [isOkOrCoinbase])

theorem rewardLoop_bad (e : Env) (u : UTXOSet) :
    ∀ (txs : List Transaction),
    (∃ tx ∈ txs, isOkOrCoinbase (Transaction.is_valid e tx u) = false) →
    ∀ (expected actual : Nat),
      rewardLoop e u txs expected actual = .error .InvalidTransaction
  | [], h, _, _ => absurd h (by simp)
  | tx :: rest, h, expected, actual => by
    obtain ⟨tx0, hmem, hbad⟩ := h
    cases hv : Transaction.is_valid e tx u with
    | ok v =>
      simp only [rewardLoop, hv]
      rcases List.mem_cons.mp hmem with heq | hrest
      · subst heq; rw [hv] at hbad; exact absurd hbad (by simp [isOkOrCoinbase])
      · exact rewardLoop_bad e u rest ⟨tx0, hrest, hbad⟩ _ _
    | error err =>
      cases err with
      | InvalidOutputAmount v =>
        simp only [rewardLoop, hv]
        rcases List.mem_cons.mp hmem with heq | hrest
        · subst heq; rw [hv] at hbad
          exact absurd hbad (by simp [isOkOrCoinbase])
        · exact rewardLoop_bad e u rest ⟨tx0, hrest, hbad⟩ _ _
      | InvalidSignature i => simp [rewardLoop, hv]
      | InputDoesNotExist i => simp [rewardLoop, hv]

/-- C2: `is_valid_block` first checks proof of work (`InvalidHash` on
failure); otherwise, when every transaction either validates or fails
with `InvalidOutputAmount`, it accepts exactly when
`reward + sum(fees) = sum(deltas)` (rejecting with `InvalidMinerReward`
otherwise), and when some transaction fails with any other error it
rejects with `InvalidTransaction`. -/
theorem c2_block_validity (e : Env) (b : Block) (d r : Nat) (u : UTXOSet) :
    (are_first_n_bits_equal zeros32 (Block.hash e b) d = some false →
      Block.is_valid_block e b d r u = some (.error .InvalidHash))
    ∧ (are_first_n_bits_equal zeros32 (Block.hash e b) d = some true →
        (∀ tx ∈ b.tx_list,
          isOkOrCoinbase (Transaction.is_valid e tx u) = true) →
        Block.is_valid_block e b d r u =
          some (if expectedReward e u b.tx_list r =
              actualReward e u b.tx_list 0 then
            .ok ()
          else
            .error .InvalidMinerReward))
    ∧ (are_first_n_bits_equal zeros32 (Block.hash e b) d = some true →
        (∃ tx ∈ b.tx_list,
          isOkOrCoinbase (Transaction.is_valid e tx u) = false) →
        Block.is_valid_block e b d r u =
          some (.error .InvalidTransaction)) := by
  refine ⟨fun hpow => ?_, fun hpow h => ?_, fun hpow h => ?_⟩
  · unfold Block.is_valid_block
    rw [hpow]
  · unfold Block.is_valid_block
    rw [hpow, rewardLoop_ok e u b.tx_list h r 0]
  · unfold Block.is_valid_block
    rw [hpow, rewardLoop_bad e u b.tx_list h r 0]

theorem c2_block_validity_witness :
    are_first_n_bits_equal zeros32 (Block.hash E1 C2B) 0 = some true ∧
    (∀ tx ∈ C2B.tx_list, isOkOrCoinbase (Transaction.is_valid E1 tx U1) = true) ∧
    Block.is_valid_block E1 C2B 0 2 U1 =
      some (if expectedReward E1 U1 C2B.tx_list 2 =
          actualReward E1 U1 C2B.tx_list 0 then
        .ok ()
      else
        .error .InvalidMinerReward) :=
  ⟨by decide, by decide,
    (c2_block_validity E1 C2B 0 2 U1).2.1 (by decide) (by decide)⟩

/-! ### Claim C10: panic behaviour of `are_first_n_bits_equal` -/

/-- C10 counterexample: at difficulty 257 with a 32-byte hash whose 32-byte
prefix differs from the zero base, the comparison returns `false` without
any out-of-bounds access, contradicting the claim that difficulties
257..263 index byte 32 out of bounds. -/
theorem c10_counterexample :
    are_first_n_bits_equal zeros32 (1 :: List.replicate 31 0) 257 =
      some false := by
  decide

/-- C10 amended: over 32-byte slices the comparison is panic-free for
every `n ≤ 256`; for `257 ≤ n ≤ 263` it panics (indexes byte 32 out of
bounds) exactly when the two 32-byte prefixes coincide — in the
proof-of-work use, when the hash is all zeros — and otherwise returns
`false` without panicking. -/
theorem c10_bit_check_panic (s1 s2 : List Nat) (n : Nat)
    (h1 : s1.length = 32) (h2 : s2.length = 32) :
    (n ≤ 256 → (are_first_n_bits_equal s1 s2 n).isSome = true)
    ∧ (257 ≤ n → n ≤ 263 →
        (are_first_n_bits_equal s1 s2 n = none ↔ s1 = s2)) := by
  constructor
  · intro hn
    by_cases hlen : s1.length < n / 8 ∨ s2.length < n / 8
    · simp [are_first_n_bits_equal, hlen]
    · by_cases hpre : s1.take (n / 8) ≠ s2.take (n / 8)
      · simp [are_first_n_bits_equal, hlen, hpre]
      · by_cases hrem : n % 8 > 0
        · have hfb : n / 8 < 32 := by omega
          obtain ⟨b1, hb1⟩ : ∃ x, s1[n / 8]? = some x :=
            ⟨_, List.getElem?_eq_getElem (by omega)⟩
          obtain ⟨b2, hb2⟩ : ∃ x, s2[n / 8]? = some x :=
            ⟨_, List.getElem?_eq_getElem (by omega)⟩
          simp [are_first_n_bits_equal, hlen, hpre, hrem, hb1, hb2]
        · simp [are_first_n_bits_equal, hlen, hpre, hrem]
  · intro h257 h263
    have hfb : n / 8 = 32 := by omega
    have hrem : n % 8 > 0 := by omega
    have hguard : ¬(s1.length < n / 8 ∨ s2.length < n / 8) := by omega
    have ht1 : s1.take (n / 8) = s1 := by
      rw [hfb, ← h1, List.take_length]
    have ht2 : s2.take (n / 8) = s2 := by
      rw [hfb, ← h2, List.take_length]
    have e1 : s1[n / 8]? = none := by
      rw [hfb]; exact List.getElem?_eq_none (by omega)
    by_cases heq : s1 = s2
    · subst heq
      have hg : ¬s1.length < n / 8 := by omega
      have hpre : ¬s1.take (n / 8) ≠ s1.take (n / 8) := not_not_intro rfl
      simp [are_first_n_bits_equal, hg, hpre, hrem, e1]
    · have hpre : s1.take (n / 8) ≠ s2.take (n / 8) := by
        rw [ht1, ht2]; exact heq
      simp [are_first_n_bits_equal, hguard, hpre, heq]

theorem c10_bit_check_panic_witness :
    zeros32.length = 32 ∧
    (are_first_n_bits_equal zeros32 zeros32 20).isSome = true :=
  ⟨by decide,
    (c10_bit_check_panic zeros32 zeros32 20 (by decide) (by decide)).1
      (by decide)⟩

/-! ### Claim C3: mining and proof of work -/

theorem leBytes_length (k n : Nat) : (leBytes k n).length = k := by
  induction k generalizing n with
  | zero => rfl
  | succ k ih => simp [leBytes, ih]

theorem mineAux_spec (e : Env) (d : Nat) (pre : List Nat) :
    ∀ (fuel nonce n : Nat), nonce < 2 ^ 64 →
    mineAux e d pre (leBytes 8 nonce) nonce fuel = some n →
    n < 2 ^ 64 ∧
      are_first_n_bits_equal zeros32 (e.digest (pre ++ leBytes 8 n)) d =
        some true
  | 0, nonce, n, _, h => by simp [mineAux] at h
  | fuel + 1, nonce, n, hlt, h => by
    unfold mineAux at h
    cases htest : are_first_n_bits_equal zeros32
        (e.digest (pre ++ leBytes 8 nonce)) d with
    | none => rw [htest] at h; cases h
    | some bb =>
      cases bb with
      | false =>
        rw [htest] at h
        exact mineAux_spec e d pre fuel ((nonce + 1) % 2 ^ 64) n
          (Nat.mod_lt _ (by norm_num)) h
      | true =>
        rw [htest] at h
        injection h with h'
        subst h'
        exact ⟨hlt, htest⟩

/-- C3 counterexample: with the block's nonce field holding 5 before
mining, the very first attempt hashes the serialization that still
contains nonce 5 but labels it with counter value 0; for a digest where
that first serialization meets difficulty 8 and the nonce-0 serialization
does not, `mine` terminates storing nonce 0, whose hash fails the
difficulty test. -/
theorem c3_counterexample :
    Block.mine E3 ⟨[], 0, [], 5⟩ 8 1 = some ⟨[], 0, [], 0⟩ ∧
    are_first_n_bits_equal zeros32 (Block.hash E3 ⟨[], 0, [], 0⟩) 8 =
      some false := by
  decide

/-- C3 amended: provided the block's nonce field is 0 before mining (so
the first attempt's serialization agrees with the counter, which starts
at 0), whenever `mine` terminates the mined block differs from the input
only in the nonce, and its hash — the digest of the serialization
containing the stored nonce — passes the `d` leading-zero-bit test. -/
theorem c3_mine_pow (e : Env) (b : Block) (d fuel : Nat) (b' : Block)
    (h0 : b.nonce = 0) (hm : Block.mine e b d fuel = some b') :
    are_first_n_bits_equal zeros32 (Block.hash e b') d = some true
    ∧ ∃ n, b' = { b with nonce := n } := by
  have hser : serBlock e b = serHead e b ++ leBytes 8 0 := by
    rw [serBlock, h0, Nat.zero_mod]
  have htake : (serBlock e b).take ((serBlock e b).length - 8) =
      serHead e b := by
    rw [hser, List.length_append, leBytes_length, Nat.add_sub_cancel,
      List.take_left]
  have hdrop : (serBlock e b).drop ((serBlock e b).length - 8) =
      leBytes 8 0 := by
    rw [hser, List.length_append, leBytes_length, Nat.add_sub_cancel,
      List.drop_left]
  simp only [Block.mine] at hm
  rw [htake, hdrop] at hm
  obtain ⟨n, hn, hb'⟩ := Option.map_eq_some'.mp hm
  obtain ⟨hlt, hpow⟩ :=
    mineAux_spec e d (serHead e b) fuel 0 n (by norm_num) hn
  subst hb'
  refine ⟨?_, n, rfl⟩
  have : serBlock e { b with nonce := n } = serHead e b ++ leBytes 8 n := by
    unfold serBlock
    rw [Nat.mod_eq_of_lt hlt]
    rfl
  rw [Block.hash, this]
  exact hpow

theorem c3_mine_pow_witness :
    (Block.new 0).nonce = 0 ∧
    Block.mine E1 (Block.new 0) 0 1 = some (Block.new 0) ∧
    (are_first_n_bits_equal zeros32 (Block.hash E1 (Block.new 0)) 0 =
        some true
      ∧ ∃ n, Block.new 0 = { Block.new 0 with nonce := n }) :=
  ⟨rfl, by decide,
    c3_mine_pow E1 (Block.new 0) 0 1 (Block.new 0) rfl (by decide)⟩

/-! ### Claims C5 and C6: mempool-to-block selection -/

/-- C5: with five valid transactions of fees 1,2,3,4,5 the builder
returns a full block, but appending a sixth valid transaction of fee 9
makes `from_mempool` panic: the eviction path unwraps
`remove_lowest_fee_transaction`'s `second_lowest_fee`, which is `None`
whenever the first included transaction is the minimum, instead of
evicting the fee-1 transaction and recomputing the tracked lowest fee. -/
theorem c5_from_mempool_eviction_panics :
    Block.from_mempool E1 0 [txF 1, txF 2, txF 3, txF 4, txF 5] U5 =
      some ⟨zeros32, 0, [txF 1, txF 2, txF 3, txF 4, txF 5], 0⟩
    ∧ Block.from_mempool E1 0 [txF 1, txF 2, txF 3, txF 4, txF 5, txF 6] U5 =
      none := by
  decide

/-- C6: a mempool entry that fails validation (its input references a key
absent from the snapshot) is not skipped: `from_mempool` panics on
`tx.is_valid(utxo_set).unwrap()` and never returns a block. -/
theorem c6_from_mempool_invalid_tx_panics :
    Block.from_mempool E1 0 [⟨0, [⟨⟨[9], 0⟩, 0⟩], []⟩] U6 = none := by
  decide

/-! ### Claim C7: forward chain-log read -/

/-- C7: on a chain file holding one well-formed record
`[len=1][body][len=1]`, `from_file` at the start of the record reads the
prefix, the body and skips the suffix, returning the parsed block with the
cursor after the record — but invoked with the cursor at end-of-file it
panics (`.unwrap()` on the failed length-prefix read) instead of
returning the `None` "no more blocks" signal. -/
theorem c7_from_file_eof_panics :
    Block.from_file E7 ⟨leBytes 4 1 ++ [7] ++ leBytes 4 1, 0⟩ =
      some (some ⟨[], 0, [], 0⟩, 9)
    ∧ Block.from_file E7 ⟨leBytes 4 1 ++ [7] ++ leBytes 4 1, 9⟩ = none := by
  decide

/-! ### Claim C8: append then read backward -/

theorem leNat_leBytes (k : Nat) : ∀ n : Nat, leNat (leBytes k n) = n % 2 ^ (8 * k) := by
  induction k with
  | zero => intro n; simp [leBytes, leNat, Nat.mod_one]
  | succ k ih =>
    intro n
    have hpow : (2 : Nat) ^ (8 * (k + 1)) = 256 * 2 ^ (8 * k) := by
      rw [show 8 * (k + 1) = 8 + 8 * k by ring, pow_add]
      norm_num
    rw [leBytes, leNat, ih (n / 256), hpow, Nat.mod_mul]

/-- C8: appending a block with `write_to_file` and then reading backward
with `from_file_backwads` (cursor just after the appended trailing length
suffix) returns the block and leaves the cursor immediately before the
record's leading length prefix; the record's leading and trailing 4-byte
lengths are equal. -/
theorem c8_append_read_backward (e : Env) (b : Block) (pre : List Nat)
    (hrt : e.deserBlock (serBlock e b) = some b)
    (hL : (serBlock e b).length < 2 ^ 32) :
    Block.from_file_backwads e
        ⟨Block.write_to_file e b pre, (Block.write_to_file e b pre).length⟩ =
      some (some b, pre.length)
    ∧ ((Block.write_to_file e b pre).drop pre.length).take 4 =
      (Block.write_to_file e b pre).drop
        (pre.length + 4 + (serBlock e b).length) := by
  have hmod : (serBlock e b).length % 2 ^ 32 = (serBlock e b).length :=
    Nat.mod_eq_of_lt hL
  have hdata : Block.write_to_file e b pre =
      pre ++ leBytes 4 (serBlock e b).length ++ serBlock e b ++
        leBytes 4 (serBlock e b).length := by
    simp only [Block.write_to_file]
    rw [hmod]
  have hdlen : (Block.write_to_file e b pre).length =
      pre.length + 4 + (serBlock e b).length + 4 := by
    rw [hdata]; simp [leBytes_length]; ring
  have htrail : (Block.write_to_file e b pre).drop
      (pre.length + 4 + (serBlock e b).length) =
      leBytes 4 (serBlock e b).length := by
    rw [hdata]
    rw [show pre ++ leBytes 4 (serBlock e b).length ++ serBlock e b ++
        leBytes 4 (serBlock e b).length =
      (pre ++ leBytes 4 (serBlock e b).length ++ serBlock e b) ++
        leBytes 4 (serBlock e b).length from by
        simp [List.append_assoc]]
    rw [List.drop_left' (by simp [leBytes_length]; ring)]
  have hbody : (Block.write_to_file e b pre).drop (pre.length + 4) =
      serBlock e b ++ leBytes 4 (serBlock e b).length := by
    rw [hdata]
    rw [show pre ++ leBytes 4 (serBlock e b).length ++ serBlock e b ++
        leBytes 4 (serBlock e b).length =
      (pre ++ leBytes 4 (serBlock e b).length) ++
        (serBlock e b ++ leBytes 4 (serBlock e b).length) from by
        simp [List.append_assoc]]
    rw [List.drop_left' (by simp [leBytes_length])]
  have hre1 : readExact
      ⟨Block.write_to_file e b pre, (Block.write_to_file e b pre).length - 4⟩
        4 =
      some (leBytes 4 (serBlock e b).length,
        (Block.write_to_file e b pre).length) := by
    unfold readExact
    dsimp only
    rw [if_pos (by omega)]
    have e1 : (Block.write_to_file e b pre).length - 4 =
        pre.length + 4 + (serBlock e b).length := by omega
    rw [e1, htrail,
      List.take_of_length_le (by rw [leBytes_length])]
    congr 1
    simp only [Prod.mk.injEq, true_and]
    omega
  have hsize : leNat (leBytes 4 (serBlock e b).length) =
      (serBlock e b).length := by
    rw [leNat_leBytes]
    exact Nat.mod_eq_of_lt (by norm_num at hL ⊢; omega)
  have hre2 : readExact
      ⟨Block.write_to_file e b pre, pre.length + 4⟩ (serBlock e b).length =
      some (serBlock e b, pre.length + 4 + (serBlock e b).length) := by
    unfold readExact
    dsimp only
    rw [if_pos (by omega)]
    rw [hbody, List.take_left]
  constructor
  · unfold Block.from_file_backwads
    dsimp only
    rw [if_neg (by omega)]
    rw [hre1]
    dsimp only
    rw [hsize]
    rw [if_neg (by omega)]
    have e2 : (Block.write_to_file e b pre).length - 4 -
        (serBlock e b).length = pre.length + 4 := by omega
    rw [e2, hre2]
    dsimp only
    rw [if_neg (by omega)]
    rw [hrt]
    dsimp only
    congr 2
    omega
  · rw [htrail]
    have hlead : (Block.write_to_file e b pre).drop pre.length =
        leBytes 4 (serBlock e b).length ++ serBlock e b ++
          leBytes 4 (serBlock e b).length := by
      rw [hdata]
      rw [show pre ++ leBytes 4 (serBlock e b).length ++ serBlock e b ++
          leBytes 4 (serBlock e b).length =
        pre ++ (leBytes 4 (serBlock e b).length ++ serBlock e b ++
          leBytes 4 (serBlock e b).length) from by
          simp [List.append_assoc]]
      rw [List.drop_left]
    rw [hlead]
    rw [show leBytes 4 (serBlock e b).length ++ serBlock e b ++
        leBytes 4 (serBlock e b).length =
      leBytes 4 (serBlock e b).length ++ (serBlock e b ++
        leBytes 4 (serBlock e b).length) from by
        simp [List.append_assoc]]
    rw [List.take_left' (by rw [leBytes_length])]

theorem c8_append_read_backward_witness :
    E8.deserBlock (serBlock E8 ⟨[], 0, [], 0⟩) = some ⟨[], 0, [], 0⟩ ∧
    (serBlock E8 ⟨[], 0, [], 0⟩).length < 2 ^ 32 ∧
    (Block.from_file_backwads E8
        ⟨Block.write_to_file E8 ⟨[], 0, [], 0⟩ [],
          (Block.write_to_file E8 ⟨[], 0, [], 0⟩ []).length⟩ =
      some (some ⟨[], 0, [], 0⟩, List.length ([] : List Nat))
    ∧ ((Block.write_to_file E8 ⟨[], 0, [], 0⟩ []).drop
        (List.length ([] : List Nat))).take 4 =
      (Block.write_to_file E8 ⟨[], 0, [], 0⟩ []).drop
        (List.length ([] : List Nat) + 4 +
          (serBlock E8 ⟨[], 0, [], 0⟩).length)) :=
  ⟨by decide, by decide,
    c8_append_read_backward E8 ⟨[], 0, [], 0⟩ [] (by decide) (by decide)⟩

/-! ### Claim C9: the durable state container -/

/-- C9 counterexample: on the corrupt 2-byte file `[9, 9]` deserialization
fails, the in-memory state is the default, but the rewritten file is the
two junk bytes followed by the default's serialization — not exactly the
serialization of the default, because `write_all` writes at the cursor
left by the failed read and nothing truncates the file. -/
theorem c9_counterexample :
    (CN.deserFrom [9, 9]).1 = none
    ∧ (StateWithFile.new CN [9, 9] 0).1 = 0
    ∧ (StateWithFile.new CN [9, 9] 0).2 ≠ CN.ser 0 := by
  decide

/-- C9 amended: on successful deserialization the in-memory state is the
persisted value and the file is unchanged; on failure the state is the
default and the default's serialization is written at the cursor position
where deserialization stopped (prior bytes before that position, and any
prior tail beyond the written region, persist); the file equals exactly
the serialization of the default when the backing file was empty. -/
theorem c9_state_with_file (T : Type) (c : Codec T) (data : List Nat)
    (dflt : T) :
    (∀ (v : T) (k : Nat), c.deserFrom data = (some v, k) →
      StateWithFile.new c data dflt = (v, data))
    ∧ (∀ k : Nat, c.deserFrom data = (none, k) →
        StateWithFile.new c data dflt =
          (dflt, data.take k ++ c.ser dflt ++
            data.drop (k + (c.ser dflt).length)))
    ∧ (data = [] → (c.deserFrom data).1 = none →
        StateWithFile.new c data dflt = (dflt, c.ser dflt)) := by
  refine ⟨?_, ?_, ?_⟩
  · intro v k h
    unfold StateWithFile.new
    rw [h]
  · intro k h
    unfold StateWithFile.new
    rw [h]
  · intro hdata hfail
    subst hdata
    unfold StateWithFile.new
    cases h : c.deserFrom [] with
    | mk r k =>
      rw [h] at hfail
      cases r with
      | some v => exact absurd hfail (by simp)
      | none => simp

theorem c9_state_with_file_witness :
    CN.deserFrom [9, 9] = (none, 2) ∧
    StateWithFile.new CN [9, 9] 0 =
      (0, List.take 2 [9, 9] ++ CN.ser 0 ++
        List.drop (2 + (CN.ser 0).length) [9, 9]) :=
  ⟨by decide, (c9_state_with_file Nat CN [9, 9] 0).2.1 2 (by decide)⟩

/-! ### Claim C4: apply then rewind round trip -/

theorem mem_outKeys (e : Env) (tx : Transaction) (k : Sha256Hash × Nat) :
    k ∈ outKeys e tx ↔ occursIn e k tx := by
  rcases k with ⟨kh, ki⟩
  simp only [outKeys, List.mem_map, List.mem_range, occursIn]
  constructor
  · rintro ⟨i, hi, heq⟩
    obtain ⟨h1, h2⟩ := Prod.mk.injEq _ _ _ _ ▸ heq
    exact ⟨h1, by simpa [← h2] using hi⟩
  · rintro ⟨h1, h2⟩
    exact ⟨ki, h2, by rw [h1]⟩

theorem foldl_removeU_apply :
    ∀ (ks : List (Sha256Hash × Nat)) (u : UTXOSet) (k : Sha256Hash × Nat),
    (ks.foldl removeU u) k = if k ∈ ks then none else u k
  | [], u, k => by simp
  | k0 :: ks, u, k => by
    simp only [List.foldl_cons]
    rw [foldl_removeU_apply ks]
    by_cases hk : k ∈ ks
    · simp [hk]
    · by_cases he : k = k0
      · simp [hk, he, removeU]
      · simp [hk, he, removeU]

theorem removeInputs_apply (tx : Transaction) (u : UTXOSet)
    (k : Sha256Hash × Nat) :
    removeInputs tx u k = if k ∈ inKeys tx then none else u k := by
  have : removeInputs tx u = (inKeys tx).foldl removeU u := by
    unfold removeInputs inKeys
    rw [List.foldl_map]
  rw [this, foldl_removeU_apply]

theorem insertOutputs_apply (txid : Sha256Hash) :
    ∀ (outs : List Output) (i : Nat) (u : UTXOSet) (k : Sha256Hash × Nat),
    insertOutputs txid outs i u k =
      if k.1 = txid ∧ i ≤ k.2 ∧ k.2 < i + outs.length then outs[k.2 - i]?
      else u k
  | [], i, u, k => by
    simp only [insertOutputs, List.length_nil]
    rw [if_neg (by omega)]
  | o :: rest, i, u, k => by
    simp only [insertOutputs]
    rw [insertOutputs_apply txid rest (i + 1)]
    rcases k with ⟨kh, ki⟩
    simp only
    by_cases h1 : kh = txid
    · subst h1
      by_cases h2 : ki = i
      · subst h2
        have hni : ¬(kh = kh ∧ ki + 1 ≤ ki ∧ ki < ki + 1 + rest.length) := by
          rintro ⟨-, h4, -⟩; omega
        rw [if_neg hni, if_pos ⟨rfl, Nat.le_refl ki,
          by simp only [List.length_cons]; omega⟩]
        simp [insertU, Nat.sub_self]
      · by_cases h3 : i + 1 ≤ ki ∧ ki < i + 1 + rest.length
        · rw [if_pos ⟨rfl, h3.1, h3.2⟩,
            if_pos ⟨rfl, by omega, by simp only [List.length_cons]; omega⟩]
          rw [show ki - i = (ki - (i + 1)) + 1 from by omega]
          simp
        · have hni : ¬(kh = kh ∧ i + 1 ≤ ki ∧ ki < i + 1 + rest.length) := by
            rintro ⟨-, h4, h5⟩; exact h3 ⟨h4, h5⟩
          have hno : ¬(kh = kh ∧ i ≤ ki ∧ ki < i + (o :: rest).length) := by
            rintro ⟨-, h4, h5⟩
            simp only [List.length_cons] at h5
            exact h3 ⟨by omega, by omega⟩
          rw [if_neg hni, if_neg hno]
          simp [insertU, Prod.mk.injEq, h2]
    · rw [if_neg (by rintro ⟨h, -⟩; exact h1 h),
        if_neg (by rintro ⟨h, -⟩; exact h1 h)]
      simp [insertU, Prod.mk.injEq, h1]

theorem applyTx_apply (e : Env) (tx : Transaction) (u : UTXOSet)
    (k : Sha256Hash × Nat) :
    applyTx e tx u k =
      if occursIn e k tx then tx.outputs[k.2]?
      else if k ∈ inKeys tx then none else u k := by
  unfold applyTx
  rw [insertOutputs_apply]
  by_cases h : occursIn e k tx
  · rw [if_pos ⟨h.1.symm, Nat.zero_le _, by simpa using h.2⟩, if_pos h,
      Nat.sub_zero]
  · rw [if_neg (by rintro ⟨h1, -, h2⟩; simp at h2; exact h ⟨h1.symm, h2⟩),
      if_neg h, removeInputs_apply]

theorem update_utxo_not_produced (e : Env) :
    ∀ (txs : List Transaction) (u : UTXOSet) (k : Sha256Hash × Nat),
    k ∉ txs.flatMap (outKeys e) →
    (txs.foldl (fun acc tx => applyTx e tx acc) u) k =
      if k ∈ txs.flatMap inKeys then none else u k
  | [], u, k, _ => by simp
  | tx :: rest, u, k, hk => by
    have hk1 : ¬occursIn e k tx := by
      rw [← mem_outKeys]
      intro hmem
      exact hk (List.mem_flatMap.mpr ⟨tx, List.mem_cons_self tx rest, hmem⟩)
    have hk2 : k ∉ rest.flatMap (outKeys e) := by
      intro hmem
      simp only [List.mem_flatMap] at hmem hk
      obtain ⟨t, ht, hkt⟩ := hmem
      exact hk ⟨t, List.mem_cons_of_mem tx ht, hkt⟩
    simp only [List.foldl_cons]
    rw [update_utxo_not_produced e rest _ k hk2, applyTx_apply, if_neg hk1]
    by_cases hr : k ∈ rest.flatMap inKeys
    · simp [hr]
    · by_cases hi : k ∈ inKeys tx
      · simp [hr, hi]
      · simp [hr, hi]

theorem rewindTx_fst (e : Env) (tx : Transaction) (up : UTXOSet × PendingSet) :
    (rewindTx e tx up).1 = (outKeys e tx).foldl removeU up.1 := by
  unfold rewindTx outKeys
  rw [List.foldl_map]
  generalize List.range tx.outputs.length = l
  induction l generalizing up with
  | nil => rfl
  | cons i l ih => simpa using ih (_, _)

theorem rewindTx_snd_mem (e : Env) (tx : Transaction)
    (up : UTXOSet × PendingSet) (k : Sha256Hash × Nat) :
    k ∈ (rewindTx e tx up).2 ↔
      k ∈ inKeys tx ∨ (k ∈ up.2 ∧ k ∉ outKeys e tx) := by
  have hcons : ∀ (inputs : List Input) (q : PendingSet),
      k ∈ inputs.foldl
        (fun acc inp => (inp.core.tx_id, inp.core.output_id) :: acc) q ↔
      k ∈ inputs.map (fun inp => (inp.core.tx_id, inp.core.output_id)) ∨
        k ∈ q := by
    intro inputs
    induction inputs with
    | nil => intro q; simp
    | cons inp rest ih =>
      intro q
      simp only [List.foldl_cons, List.map_cons, List.mem_cons]
      rw [ih]
      simp only [List.mem_cons]
      tauto
  have hsnd : ∀ (l : List Nat) (up' : UTXOSet × PendingSet),
      (l.foldl (fun (acc : UTXOSet × PendingSet) i =>
        (removeU acc.1 (Transaction.calculate_id e tx, i),
          removeP acc.2 (Transaction.calculate_id e tx, i))) up').2 =
      (l.map (fun i => (Transaction.calculate_id e tx, i))).foldl
        removeP up'.2 := by
    intro l
    induction l with
    | nil => intro up'; rfl
    | cons i l ih => intro up'; simpa using ih (_, _)
  have hremP : ∀ (ks : List (Sha256Hash × Nat)) (p : PendingSet),
      k ∈ ks.foldl removeP p ↔ k ∈ p ∧ k ∉ ks := by
    intro ks
    induction ks with
    | nil => intro p; simp
    | cons k0 ks ih =>
      intro p
      simp only [List.foldl_cons]
      rw [ih]
      simp only [removeP, List.mem_filter, List.mem_cons, decide_eq_true_eq]
      tauto
  unfold rewindTx
  rw [hcons, hsnd, hremP]
  unfold inKeys outKeys
  tauto

theorem rewind_fst (e : Env) :
    ∀ (txs : List Transaction) (up : UTXOSet × PendingSet)
      (k : Sha256Hash × Nat),
    (txs.foldl (fun a tx => rewindTx e tx a) up).1 k =
      if k ∈ txs.flatMap (outKeys e) then none else up.1 k
  | [], up, k => by simp
  | tx :: rest, up, k => by
    simp only [List.foldl_cons]
    rw [rewind_fst e rest _ k]
    rw [rewindTx_fst, foldl_removeU_apply]
    by_cases hr : k ∈ rest.flatMap (outKeys e)
    · simp [hr]
    · by_cases ho : k ∈ outKeys e tx
      · simp [hr, ho]
      · simp [hr, ho]

theorem rewind_snd_mem (e : Env) :
    ∀ (txs : List Transaction) (up : UTXOSet × PendingSet),
    (∀ tx ∈ txs, ∀ k ∈ outKeys e tx,
      k ∉ txs.flatMap inKeys ∧ k ∉ up.2) →
    ∀ (k : Sha256Hash × Nat),
    (k ∈ (txs.foldl (fun a tx => rewindTx e tx a) up).2 ↔
      k ∈ up.2 ∨ k ∈ txs.flatMap inKeys)
  | [], up, _, k => by simp
  | tx :: rest, up, hdisj, k => by
    simp only [List.foldl_cons]
    have hstep : ∀ k', k' ∈ (rewindTx e tx up).2 ↔
        k' ∈ up.2 ∨ k' ∈ inKeys tx := by
      intro k'
      rw [rewindTx_snd_mem]
      constructor
      · rintro (h | ⟨h, -⟩)
        · exact Or.inr h
        · exact Or.inl h
      · rintro (h | h)
        · refine Or.inr ⟨h, fun ho => ?_⟩
          exact (hdisj tx (List.mem_cons_self tx rest) k' ho).2 h
        · exact Or.inl h
    have hdisj' : ∀ t ∈ rest, ∀ k' ∈ outKeys e t,
        k' ∉ rest.flatMap inKeys ∧ k' ∉ (rewindTx e tx up).2 := by
      intro t ht k' hk'
      have h0 := hdisj t (List.mem_cons_of_mem tx ht) k' hk'
      constructor
      · intro hmem
        simp only [List.mem_flatMap] at hmem h0
        obtain ⟨t', ht', hkt'⟩ := hmem
        exact h0.1 ⟨t', List.mem_cons_of_mem tx ht', hkt'⟩
      · rw [hstep]
        rintro (h | h)
        · exact h0.2 h
        · exact h0.1
            (List.mem_flatMap.mpr ⟨tx, List.mem_cons_self tx rest, h⟩)
    rw [rewind_snd_mem e rest _ hdisj' k, hstep]
    simp only [List.flatMap_cons, List.mem_append]
    tauto

theorem mem_removeP (p : PendingSet) (a b : Sha256Hash × Nat) :
    a ∈ removeP p b ↔ a ∈ p ∧ a ≠ b := by
  simp [removeP, List.mem_filter]

theorem addPendingOuts_char (txid : Sha256Hash) :
    ∀ (outs : List Output) (i : Nat) (up : UTXOSet × PendingSet)
      (k : Sha256Hash × Nat),
    (k ∈ (addPendingOuts txid outs i up).2 ↔
      k ∈ up.2 ∧ ¬(k.1 = txid ∧ i ≤ k.2 ∧ k.2 < i + outs.length))
    ∧ ((addPendingOuts txid outs i up).1 k =
        if k ∈ up.2 ∧ k.1 = txid ∧ i ≤ k.2 ∧ k.2 < i + outs.length
        then outs[k.2 - i]? else up.1 k)
  | [], i, up, k => by
    have hc : ¬(k.1 = txid ∧ i ≤ k.2 ∧ k.2 < i + ([] : List Output).length) := by
      rintro ⟨-, h2, h3⟩
      simp only [List.length_nil] at h3
      omega
    exact ⟨by simp only [addPendingOuts]; exact (and_iff_left hc).symm,
      by simp only [addPendingOuts]; rw [if_neg (fun h => hc h.2)]⟩
  | o :: rest, i, up, k => by
    rcases up with ⟨u, p⟩
    rcases k with ⟨kh, ki⟩
    simp only [addPendingOuts, List.length_cons]
    by_cases hmem : (txid, i) ∈ p
    · rw [if_pos hmem]
      obtain ⟨ihm, ihv⟩ := addPendingOuts_char txid rest (i + 1)
        (insertU u (txid, i) o, removeP p (txid, i)) (kh, ki)
      dsimp only at ihm ihv
      constructor
      · rw [ihm]
        simp only [mem_removeP]
        constructor
        · rintro ⟨⟨hkp, hne⟩, hnc⟩
          refine ⟨hkp, ?_⟩
          rintro ⟨h1, h2, h3⟩
          have hki : ki ≠ i := fun he => hne (by rw [h1, he])
          exact hnc ⟨h1, by omega, by omega⟩
        · rintro ⟨hkp, hnc⟩
          refine ⟨⟨hkp, fun he => ?_⟩, ?_⟩
          · obtain ⟨h1, h2⟩ := Prod.mk.injEq .. ▸ he
            exact hnc ⟨h1, by omega, by omega⟩
          · rintro ⟨h1, h2, h3⟩
            exact hnc ⟨h1, by omega, by omega⟩
      · rw [ihv]
        by_cases hp : (kh, ki) ∈ p
        · by_cases h1 : kh = txid
          · by_cases h2 : ki = i
            · have hnc' : ¬((kh, ki) ∈ removeP p (txid, i) ∧ kh = txid ∧
                  i + 1 ≤ ki ∧ ki < i + 1 + rest.length) := by
                rintro ⟨-, -, h4, -⟩; omega
              have hkey : ((kh, ki) : Sha256Hash × Nat) = (txid, i) := by
                rw [h1, h2]
              rw [if_neg hnc', if_pos ⟨hp, h1, by omega, by omega⟩]
              simp only [insertU]
              rw [if_pos hkey, h2, Nat.sub_self]
              simp
            · by_cases h3 : i + 1 ≤ ki ∧ ki < i + 1 + rest.length
              · have hin : ((kh, ki) : Sha256Hash × Nat) ∈
                    removeP p (txid, i) := by
                  rw [mem_removeP]
                  refine ⟨hp, fun he => ?_⟩
                  obtain ⟨-, hb⟩ := Prod.mk.injEq .. ▸ he
                  exact h2 hb
                rw [if_pos ⟨hin, h1, h3.1, h3.2⟩,
                  if_pos ⟨hp, h1, by omega, by omega⟩]
                rw [show ki - i = (ki - (i + 1)) + 1 from by omega]
                simp
              · have hnc' : ¬((kh, ki) ∈ removeP p (txid, i) ∧ kh = txid ∧
                    i + 1 ≤ ki ∧ ki < i + 1 + rest.length) := by
                  rintro ⟨-, -, h4, h5⟩; exact h3 ⟨h4, h5⟩
                have hno : ¬((kh, ki) ∈ p ∧ kh = txid ∧
                    i ≤ ki ∧ ki < i + (rest.length + 1)) := by
                  rintro ⟨-, -, h4, h5⟩; exact h3 ⟨by omega, by omega⟩
                rw [if_neg hnc', if_neg hno]
                simp [insertU, Prod.mk.injEq, h2]
          · have hn1 : ¬((kh, ki) ∈ removeP p (txid, i) ∧ kh = txid ∧
                i + 1 ≤ ki ∧ ki < i + 1 + rest.length) := by
              rintro ⟨-, hb, -⟩; exact h1 hb
            have hn2 : ¬((kh, ki) ∈ p ∧ kh = txid ∧ i ≤ ki ∧
                ki < i + (rest.length + 1)) := by
              rintro ⟨-, hb, -⟩; exact h1 hb
            rw [if_neg hn1, if_neg hn2]
            simp [insertU, Prod.mk.injEq, h1]
        · have hne : ((kh, ki) : Sha256Hash × Nat) ≠ (txid, i) := by
            intro he; rw [he] at hp; exact hp hmem
          have hn1 : ¬((kh, ki) ∈ removeP p (txid, i) ∧ kh = txid ∧
              i + 1 ≤ ki ∧ ki < i + 1 + rest.length) := by
            rintro ⟨hin, -⟩
            exact hp ((mem_removeP ..).mp hin).1
          have hn2 : ¬((kh, ki) ∈ p ∧ kh = txid ∧ i ≤ ki ∧
              ki < i + (rest.length + 1)) := by
            rintro ⟨hin, -⟩; exact hp hin
          rw [if_neg hn1, if_neg hn2]
          simp [insertU, hne]
    · rw [if_neg hmem]
      obtain ⟨ihm, ihv⟩ := addPendingOuts_char txid rest (i + 1) (u, p) (kh, ki)
      dsimp only at ihm ihv
      have hiff : ∀ _ : (kh, ki) ∈ p,
          ((kh = txid ∧ i + 1 ≤ ki ∧ ki < i + 1 + rest.length) ↔
            (kh = txid ∧ i ≤ ki ∧ ki < i + (rest.length + 1))) := by
        intro hkp
        have hne : ki ≠ i ∨ kh ≠ txid := by
          by_cases h1 : kh = txid
          · left
            intro he
            apply hmem
            rw [← h1, ← he]
            exact hkp
          · right; exact h1
        constructor
        · rintro ⟨h1, h2, h3⟩
          exact ⟨h1, by omega, by omega⟩
        · rintro ⟨h1, h2, h3⟩
          rcases hne with hne | hne
          · exact ⟨h1, by omega, by omega⟩
          · exact absurd h1 hne
      constructor
      · rw [ihm]
        constructor
        · rintro ⟨hkp, hnc⟩
          exact ⟨hkp, fun hc => hnc ((hiff hkp).mpr hc)⟩
        · rintro ⟨hkp, hnc⟩
          exact ⟨hkp, fun hc => hnc ((hiff hkp).mp hc)⟩
      · rw [ihv]
        by_cases hp : (kh, ki) ∈ p
        · by_cases hc : kh = txid ∧ i ≤ ki ∧ ki < i + (rest.length + 1)
          · have hki : ki ≠ i := by
              intro he
              apply hmem
              rw [← hc.1, ← he]
              exact hp
            rw [if_pos ⟨hp, (hiff hp).mpr hc⟩, if_pos ⟨hp, hc⟩,
              show ki - i = (ki - (i + 1)) + 1 from by omega]
            simp
          · rw [if_neg (fun h => hc ((hiff hp).mp h.2)),
              if_neg (fun h => hc h.2)]
        · rw [if_neg (fun h => hp h.1), if_neg (fun h => hp h.1)]

theorem add_pending_block_char (e : Env) (target : UTXOSet) :
    ∀ (txs : List Transaction) (up : UTXOSet × PendingSet),
    (∀ k ∈ up.2, ∀ tx ∈ txs, Transaction.calculate_id e tx = k.1 →
      k.2 < tx.outputs.length → target k = tx.outputs[k.2]?) →
    ∀ (k : Sha256Hash × Nat),
    (k ∈ (txs.foldl (fun acc tx =>
        addPendingOuts (Transaction.calculate_id e tx) tx.outputs 0 acc)
          up).2 ↔
      k ∈ up.2 ∧ ∀ tx ∈ txs, ¬occursIn e k tx)
    ∧ ((txs.foldl (fun acc tx =>
        addPendingOuts (Transaction.calculate_id e tx) tx.outputs 0 acc)
          up).1 k =
        if k ∈ up.2 ∧ ∃ tx ∈ txs, occursIn e k tx then target k
        else up.1 k)
  | [], up, _, k => by
    constructor
    · simp
    · simp
  | tx :: rest, up, hv, k => by
    obtain ⟨pm, pv⟩ := addPendingOuts_char (Transaction.calculate_id e tx)
      tx.outputs 0 up k
    have hcond : (k.1 = Transaction.calculate_id e tx ∧ 0 ≤ k.2 ∧
        k.2 < 0 + tx.outputs.length) ↔ occursIn e k tx := by
      unfold occursIn
      constructor
      · rintro ⟨h1, -, h2⟩; exact ⟨h1.symm, by omega⟩
      · rintro ⟨h1, h2⟩; exact ⟨h1.symm, Nat.zero_le _, by omega⟩
    have hv' : ∀ k' ∈ (addPendingOuts (Transaction.calculate_id e tx)
        tx.outputs 0 up).2, ∀ t ∈ rest, Transaction.calculate_id e t = k'.1 →
        k'.2 < t.outputs.length → target k' = t.outputs[k'.2]? := by
      intro k' hk' t ht
      have hk'2 := ((addPendingOuts_char (Transaction.calculate_id e tx)
        tx.outputs 0 up k').1.mp hk').1
      exact hv k' hk'2 t (List.mem_cons_of_mem tx ht)
    obtain ⟨ihm, ihv⟩ := add_pending_block_char e target rest
      (addPendingOuts (Transaction.calculate_id e tx) tx.outputs 0 up)
      hv' k
    simp only [List.foldl_cons]
    constructor
    · rw [ihm, pm, hcond]
      simp only [List.forall_mem_cons]
      tauto
    · rw [ihv]
      simp only [pm, pv, hcond, Nat.sub_zero]
      by_cases hup : k ∈ up.2
      · by_cases hocc : occursIn e k tx
        · have h1 : ¬(k ∈ up.2 ∧ ¬occursIn e k tx) := by
            rintro ⟨-, h⟩; exact h hocc
          rw [if_neg (fun h => h1 h.1), if_pos ⟨hup, hocc⟩,
            if_pos ⟨hup, tx, List.mem_cons_self tx rest, hocc⟩]
          exact (hv k hup tx (List.mem_cons_self tx rest) hocc.1 hocc.2).symm
        · have hnocond : ¬(k ∈ up.2 ∧ occursIn e k tx) := by
            rintro ⟨-, h⟩; exact hocc h
          rw [if_neg hnocond]
          by_cases hex : ∃ t ∈ rest, occursIn e k t
          · rw [if_pos ⟨⟨hup, hocc⟩, hex⟩]
            obtain ⟨t, ht, hot⟩ := hex
            rw [if_pos ⟨hup, t, List.mem_cons_of_mem tx ht, hot⟩]
          · have hn1 : ¬((k ∈ up.2 ∧ ¬occursIn e k tx) ∧
                ∃ t ∈ rest, occursIn e k t) := by
              rintro ⟨-, h⟩; exact hex h
            have hn2 : ¬(k ∈ up.2 ∧ ∃ t ∈ tx :: rest, occursIn e k t) := by
              rintro ⟨-, t, ht, hot⟩
              rcases List.mem_cons.mp ht with rfl | ht'
              · exact hocc hot
              · exact hex ⟨t, ht', hot⟩
            rw [if_neg hn1, if_neg hn2]
      · have h1 : ¬(k ∈ up.2 ∧ ¬occursIn e k tx) := fun h => hup h.1
        have h2 : ¬(k ∈ up.2 ∧ occursIn e k tx) := fun h => hup h.1
        rw [if_neg (fun h => h1 h.1), if_neg h2,
          if_neg (fun h => hup h.1)]

theorem update_all_pending_char (e : Env) (target : UTXOSet) :
    ∀ (chain : List Block) (u : UTXOSet) (p : PendingSet),
    (∀ k ∈ p, ∀ bl ∈ chain, ∀ tx ∈ bl.tx_list,
      Transaction.calculate_id e tx = k.1 → k.2 < tx.outputs.length →
      target k = tx.outputs[k.2]?) →
    (∀ k ∈ p, ∃ bl ∈ chain, ∃ tx ∈ bl.tx_list, occursIn e k tx) →
    ∃ u2, Block.update_all_pending_utxos e chain u p = some (u2, [])
      ∧ ∀ k, u2 k = if k ∈ p then target k else u k
  | chain, u, [], _, _ => by
    refine ⟨u, ?_, fun k => by simp⟩
    cases chain <;> rfl
  | [], u, k0 :: p', hv, hcov => by
    exfalso
    obtain ⟨bl, hbl, -⟩ := hcov k0 (List.mem_cons_self k0 p')
    exact absurd hbl (List.not_mem_nil bl)
  | bl :: rest, u, k0 :: p', hv, hcov => by
    have hchar := add_pending_block_char e target bl.tx_list (u, k0 :: p')
      (fun k hk tx htx => hv k hk bl (List.mem_cons_self bl rest) tx htx)
    have cm : ∀ k, k ∈ (Block.add_pending_utxos_to_utxo_set e bl
        (u, k0 :: p')).2 ↔
        k ∈ (k0 :: p') ∧ ∀ tx ∈ bl.tx_list, ¬occursIn e k tx :=
      fun k => (hchar k).1
    have cv : ∀ k, (Block.add_pending_utxos_to_utxo_set e bl
        (u, k0 :: p')).1 k =
        if k ∈ (k0 :: p') ∧ ∃ tx ∈ bl.tx_list, occursIn e k tx then target k
        else u k :=
      fun k => (hchar k).2
    have hv' : ∀ k ∈ (Block.add_pending_utxos_to_utxo_set e bl
        (u, k0 :: p')).2, ∀ bl' ∈ rest, ∀ tx ∈ bl'.tx_list,
        Transaction.calculate_id e tx = k.1 → k.2 < tx.outputs.length →
        target k = tx.outputs[k.2]? := by
      intro k hk bl' hbl' tx htx
      exact hv k ((cm k).mp hk).1 bl' (List.mem_cons_of_mem bl hbl') tx htx
    have hcov' : ∀ k ∈ (Block.add_pending_utxos_to_utxo_set e bl
        (u, k0 :: p')).2, ∃ bl' ∈ rest, ∃ tx ∈ bl'.tx_list,
        occursIn e k tx := by
      intro k hk
      obtain ⟨hkp, hnone⟩ := (cm k).mp hk
      obtain ⟨bl', hbl', tx, htx, hocc⟩ := hcov k hkp
      rcases List.mem_cons.mp hbl' with rfl | hbl''
      · exact absurd hocc (hnone tx htx)
      · exact ⟨bl', hbl'', tx, htx, hocc⟩
    obtain ⟨u2, heq, hform⟩ := update_all_pending_char e target rest
      (Block.add_pending_utxos_to_utxo_set e bl (u, k0 :: p')).1
      (Block.add_pending_utxos_to_utxo_set e bl (u, k0 :: p')).2 hv' hcov'
    refine ⟨u2, heq, fun k => ?_⟩
    rw [hform k]
    by_cases hk : k ∈ (Block.add_pending_utxos_to_utxo_set e bl
        (u, k0 :: p')).2
    · rw [if_pos hk, if_pos ((cm k).mp hk).1]
    · rw [if_neg hk, cv k]
      by_cases hp : k ∈ (k0 :: p')
      · have hex : ∃ tx ∈ bl.tx_list, occursIn e k tx := by
          have hnall : ¬∀ tx ∈ bl.tx_list, ¬occursIn e k tx :=
            fun hall => hk ((cm k).mpr ⟨hp, hall⟩)
          push_neg at hnall
          simpa using hnall
        rw [if_pos ⟨hp, hex⟩, if_pos hp]
      · rw [if_neg (fun h => hp h.1), if_neg hp]

theorem sumInputs_no_ioa (e : Env) (u : UTXOSet) :
    ∀ (inputs : List Input) (i acc v : Nat),
    sumInputs e u inputs i acc ≠ .error (.InvalidOutputAmount v)
  | [], i, acc, v => by simp [sumInputs]
  | inp :: rest, i, acc, v => by
    cases hu : u (inp.core.tx_id, inp.core.output_id) with
    | none => simp [sumInputs, hu]
    | some o =>
      simp only [sumInputs, hu]
      by_cases hver : e.verify inp o.to_pubkey = true
      · rw [if_pos hver]
        exact sumInputs_no_ioa e u rest (i + 1) _ v
      · rw [if_neg hver]
        simp

theorem sumInputs_exists (e : Env) (u : UTXOSet) :
    ∀ (inputs : List Input) (i acc v : Nat),
    sumInputs e u inputs i acc = .ok v →
    ∀ inp ∈ inputs, ∃ o, u (inp.core.tx_id, inp.core.output_id) = some o
  | [], _, _, _, _ => by simp
  | inp :: rest, i, acc, v, h => by
    intro x hx
    cases hu : u (inp.core.tx_id, inp.core.output_id) with
    | none => simp [sumInputs, hu] at h
    | some o =>
      simp only [sumInputs, hu] at h
      by_cases hver : e.verify inp o.to_pubkey = true
      · rw [if_pos hver] at h
        rcases List.mem_cons.mp hx with rfl | hx'
        · exact ⟨o, hu⟩
        · exact sumInputs_exists e u rest _ _ v h x hx'
      · rw [if_neg hver] at h
        simp at h

theorem is_valid_okOrCoinbase_exists (e : Env) (tx : Transaction)
    (u : UTXOSet)
    (h : isOkOrCoinbase (Transaction.is_valid e tx u) = true) :
    ∀ inp ∈ tx.inputs,
      ∃ o, u (inp.core.tx_id, inp.core.output_id) = some o := by
  cases hs : sumInputs e u tx.inputs 0 0 with
  | error err =>
    simp only [Transaction.is_valid, hs] at h
    cases err with
    | InvalidOutputAmount v =>
      exact absurd hs (sumInputs_no_ioa e u tx.inputs 0 0 v)
    | InvalidSignature i => simp [isOkOrCoinbase] at h
    | InputDoesNotExist i => simp [isOkOrCoinbase] at h
  | ok tin => exact sumInputs_exists e u tx.inputs 0 0 tin hs

theorem valid_block_txs_ok (e : Env) (b : Block) (d r : Nat) (u : UTXOSet)
    (h : Block.is_valid_block e b d r u = some (.ok ())) :
    ∀ tx ∈ b.tx_list, isOkOrCoinbase (Transaction.is_valid e tx u) = true := by
  by_contra hbad
  push_neg at hbad
  obtain ⟨tx, htx, hne⟩ := hbad
  have hb : isOkOrCoinbase (Transaction.is_valid e tx u) = false := by
    cases hiso : isOkOrCoinbase (Transaction.is_valid e tx u)
    · rfl
    · exact absurd hiso hne
  cases hpow : are_first_n_bits_equal zeros32 (Block.hash e b) d with
  | none =>
    simp only [Block.is_valid_block, hpow] at h
    exact Option.noConfusion h
  | some bb =>
    cases bb
    · simp only [Block.is_valid_block, hpow] at h
      simp at h
    · simp only [Block.is_valid_block, hpow,
        rewardLoop_bad e u b.tx_list ⟨tx, htx, hb⟩ r 0] at h
      simp at h

/-- C4 amended: if block `b` validates against `u`, none of the output
keys `b` creates is already present in `u` (fresh transaction ids), and
the chain log provides, consistently with `u`, every output consumed by
`b`'s inputs, then applying `b` and rewinding it (empty pending set, then
the backward scan) terminates with an empty pending set and restores a
UTXO set equal to `u`. -/
theorem c4_apply_rewind_roundtrip (e : Env) (b : Block) (d r : Nat)
    (u : UTXOSet) (chain : List Block)
    (hvalid : Block.is_valid_block e b d r u = some (.ok ()))
    (hfresh : ∀ tx ∈ b.tx_list, ∀ i < tx.outputs.length,
      u (Transaction.calculate_id e tx, i) = none)
    (hcov : ∀ k ∈ consumedKeys b, ∃ bl ∈ chain, ∃ tx ∈ bl.tx_list,
      occursIn e k tx)
    (hval : ∀ k ∈ consumedKeys b, ∀ bl ∈ chain, ∀ tx ∈ bl.tx_list,
      Transaction.calculate_id e tx = k.1 → k.2 < tx.outputs.length →
      u k = tx.outputs[k.2]?) :
    ∃ u2, Block.update_all_pending_utxos e chain
        (Block.rewind e b (Block.update_utxo_set e b u) []).1
        (Block.rewind e b (Block.update_utxo_set e b u) []).2 =
      some (u2, [])
    ∧ ∀ k, u2 k = u k := by
  have hprod_none : ∀ k ∈ producedKeys e b, u k = none := by
    intro k hk
    obtain ⟨tx, htx, hko⟩ := List.mem_flatMap.mp hk
    obtain ⟨hid, hlt⟩ := (mem_outKeys e tx k).mp hko
    have hk' : (Transaction.calculate_id e tx, k.2) = k := by rw [hid]
    rw [← hk']
    exact hfresh tx htx k.2 hlt
  have htxok := valid_block_txs_ok e b d r u hvalid
  have hcons_some : ∀ k ∈ consumedKeys b, ∃ o, u k = some o := by
    intro k hk
    obtain ⟨tx, htx, hki⟩ := List.mem_flatMap.mp hk
    obtain ⟨inp, hinp, hke⟩ := List.mem_map.mp hki
    obtain ⟨o, ho⟩ :=
      is_valid_okOrCoinbase_exists e tx u (htxok tx htx) inp hinp
    exact ⟨o, by rw [← hke]; exact ho⟩
  have hdisj : ∀ k ∈ producedKeys e b, k ∉ consumedKeys b := by
    intro k hk hkc
    obtain ⟨o, ho⟩ := hcons_some k hkc
    rw [hprod_none k hk] at ho
    cases ho
  have hu1 : ∀ k, (Block.rewind e b (Block.update_utxo_set e b u) []).1 k =
      if k ∈ producedKeys e b ∨ k ∈ consumedKeys b then none else u k := by
    intro k
    rw [show Block.rewind e b (Block.update_utxo_set e b u) [] =
      b.tx_list.foldl (fun a tx => rewindTx e tx a)
        (Block.update_utxo_set e b u, []) from rfl]
    rw [rewind_fst]
    by_cases hkp : k ∈ producedKeys e b
    · have hkp' : k ∈ b.tx_list.flatMap (outKeys e) := hkp
      rw [if_pos hkp', if_pos (Or.inl hkp)]
    · have hkp' : k ∉ b.tx_list.flatMap (outKeys e) := hkp
      rw [if_neg hkp']
      rw [show (Block.update_utxo_set e b u, ([] : PendingSet)).1 =
        b.tx_list.foldl (fun acc tx => applyTx e tx acc) u from rfl]
      rw [update_utxo_not_produced e b.tx_list u k hkp']
      by_cases hkc : k ∈ consumedKeys b
      · have hkc' : k ∈ b.tx_list.flatMap inKeys := hkc
        rw [if_pos hkc', if_pos (Or.inr hkc)]
      · have hkc' : k ∉ b.tx_list.flatMap inKeys := hkc
        rw [if_neg hkc',
          if_neg (by rintro (h | h); exacts [hkp h, hkc h])]
  have hp1 : ∀ k,
      (k ∈ (Block.rewind e b (Block.update_utxo_set e b u) []).2 ↔
        k ∈ consumedKeys b) := by
    intro k
    rw [show Block.rewind e b (Block.update_utxo_set e b u) [] =
      b.tx_list.foldl (fun a tx => rewindTx e tx a)
        (Block.update_utxo_set e b u, []) from rfl]
    have hd : ∀ tx ∈ b.tx_list, ∀ k' ∈ outKeys e tx,
        k' ∉ b.tx_list.flatMap inKeys ∧
        k' ∉ ((Block.update_utxo_set e b u, ([] : PendingSet))).2 := by
      intro tx htx k' hk'
      exact ⟨hdisj k' (List.mem_flatMap.mpr ⟨tx, htx, hk'⟩),
        List.not_mem_nil k'⟩
    rw [rewind_snd_mem e b.tx_list _ hd k]
    simp [consumedKeys]
  obtain ⟨u2, heq, hform⟩ := update_all_pending_char e u chain
    (Block.rewind e b (Block.update_utxo_set e b u) []).1
    (Block.rewind e b (Block.update_utxo_set e b u) []).2
    (fun k hk => hval k ((hp1 k).mp hk))
    (fun k hk => hcov k ((hp1 k).mp hk))
  refine ⟨u2, heq, fun k => ?_⟩
  rw [hform k]
  by_cases hk : k ∈ (Block.rewind e b (Block.update_utxo_set e b u) []).2
  · rw [if_pos hk]
  · rw [if_neg hk, hu1 k]
    have hkc : k ∉ consumedKeys b := fun h => hk ((hp1 k).mpr h)
    by_cases hkp : k ∈ producedKeys e b
    · rw [if_pos (Or.inl hkp)]
      exact (hprod_none k hkp).symm
    · rw [if_neg (by rintro (h | h); exacts [hkp h, hkc h])]

/-- C4 counterexample: the block validates against `C4U` (difficulty 0,
reward 5) and consumes nothing, so the empty chain log contains every
consumed output; yet applying and rewinding it erases the pre-existing
entry at `([1], 0)` — the round trip completes with an empty pending set
but does not restore the snapshot, because validation never checks that
created output keys are fresh. -/
theorem c4_counterexample :
    Block.is_valid_block E4 C4B 0 5 C4U = some (.ok ())
    ∧ consumedKeys C4B = []
    ∧ C4U ([1], 0) = some ⟨7, 7⟩
    ∧ (Block.update_all_pending_utxos E4 []
        (Block.rewind E4 C4B (Block.update_utxo_set E4 C4B C4U) []).1
        (Block.rewind E4 C4B (Block.update_utxo_set E4 C4B C4U) []).2).map
        (fun res => (res.1 ([1], 0), res.2)) = some (none, []) := by
  decide

theorem c4_apply_rewind_roundtrip_witness :
    Block.is_valid_block E4W W4B 0 0 W4U = some (.ok ())
    ∧ (∀ tx ∈ W4B.tx_list, ∀ i < tx.outputs.length,
        W4U (Transaction.calculate_id E4W tx, i) = none)
    ∧ (∀ k ∈ consumedKeys W4B, ∃ bl ∈ W4chain, ∃ tx ∈ bl.tx_list,
        occursIn E4W k tx)
    ∧ (∀ k ∈ consumedKeys W4B, ∀ bl ∈ W4chain, ∀ tx ∈ bl.tx_list,
        Transaction.calculate_id E4W tx = k.1 → k.2 < tx.outputs.length →
        W4U k = tx.outputs[k.2]?)
    ∧ (∃ u2, Block.update_all_pending_utxos E4W W4chain
          (Block.rewind E4W W4B (Block.update_utxo_set E4W W4B W4U) []).1
          (Block.rewind E4W W4B (Block.update_utxo_set E4W W4B W4U) []).2 =
        some (u2, [])
      ∧ ∀ k, u2 k = W4U k) :=
  ⟨by decide, by decide, by decide, by decide,
    c4_apply_rewind_roundtrip E4W W4B 0 0 W4U W4chain (by decide) (by decide)
      (by decide) (by decide)⟩
